import Mathlib

/-!
Verification of the retrieval pipeline (chunk → embed → index → similarity
search → prompt assembly) described by the repository's specification.
The repository itself is a notebook that drives third-party libraries
(document loading, text splitting, Chroma vector store, prompt templates);
the pipeline components are therefore modelled from the specification's
component contracts (§4 of the spec), with the notebook contributing the
concrete parameter choices (chunk_size=1024, chunk_overlap=64, k=2,
normalized embeddings, cosine similarity).
-/

namespace RAG

/-- Modelled from the spec: a Document record `{ id, source_uri, raw_text }`
produced by Ingestion.  The text alphabet is kept abstract. -/
structure Document (α : Type) where
  id : Nat
  source_uri : String
  raw_text : List α
  deriving Repr, DecidableEq

/-- Modelled from the spec: a Chunk record `{ document_id, text, start_offset,
end_offset }` produced by the Chunker. -/
structure Chunk (α : Type) where
  document_id : Nat
  text : List α
  start_offset : Nat
  end_offset : Nat
  deriving Repr, DecidableEq

/-- Modelled from the spec: Chunker error kind for bad parameters. -/
inductive ChunkError where
  | InvalidConfiguration
  deriving Repr, DecidableEq

instance {ε β : Type} [DecidableEq ε] [DecidableEq β] :
    DecidableEq (Except ε β) := fun a b =>
  match a, b with
  | .ok x, .ok y => decidable_of_iff (x = y) (by simp)
  | .error x, .error y => decidable_of_iff (x = y) (by simp)
  | .ok _, .error _ => .isFalse (by simp)
  | .error _, .ok _ => .isFalse (by simp)

/-- Modelled from the spec: the sliding-window walk of the Chunker.  At
position `pos` it emits the window `text[pos, pos+size)` and advances by
`step = size - overlap`; the walk stops with the first window that reaches
the end of the document.  `fuel` is a structural-termination bound; every
caller supplies `fuel ≥ doc.length` so the bound is never hit. -/
def splitFrom (docId : Nat) (doc : List α) (size step : Nat) :
    Nat → Nat → List (Chunk α)
  | 0, _ => []
  | fuel + 1, pos =>
    let t := (doc.drop pos).take size
    if pos + size < doc.length then
      ⟨docId, t, pos, pos + size⟩ :: splitFrom docId doc size step fuel (pos + step)
    else
      [⟨docId, t, pos, doc.length⟩]

/-- Modelled from the spec: `split(document, max_chunk_size, overlap)`.
Constraints `max_chunk_size > overlap >= 0`, failing with
`InvalidConfiguration` otherwise; on an empty document there is no text to
window, so no chunk is produced (chunks are never empty). -/
def split (doc : Document α) (maxChunkSize overlap : Int) :
    Except ChunkError (List (Chunk α)) :=
  if overlap < maxChunkSize ∧ 0 ≤ overlap then
    if doc.raw_text.isEmpty then .ok []
    else
      .ok (splitFrom doc.id doc.raw_text maxChunkSize.toNat
        (maxChunkSize - overlap).toNat doc.raw_text.length 0)
  else .error .InvalidConfiguration

/-- Modelled from the spec: reassembly of the chunks of one document by
removing the `overlap`-character leading prefix of every chunk after the
first and concatenating what is left. -/
def reassemble (overlap : Nat) : List (Chunk α) → List α
  | [] => []
  | c :: rest => c.text ++ (rest.map (fun d => d.text.drop overlap)).flatten

/-- One unfolding of `splitFrom` with positive fuel: the head chunk is always
the window at `pos`. -/
theorem splitFrom_succ (docId : Nat) (doc : List α) (size step fuel pos : Nat) :
    splitFrom docId doc size step (fuel + 1) pos =
      if pos + size < doc.length then
        ⟨docId, (doc.drop pos).take size, pos, pos + size⟩ ::
          splitFrom docId doc size step fuel (pos + step)
      else
        [⟨docId, (doc.drop pos).take size, pos, doc.length⟩] := by
  simp [splitFrom]

/-- Dropping the overlap off every chunk produced from position `pos` onwards
and concatenating recovers the document's text from position `pos + ov`. -/
theorem join_drop_splitFrom (docId : Nat) (doc : List α) (size ov : Nat)
    (hov : ov < size) :
    ∀ fuel pos, doc.length ≤ pos + fuel →
      ((splitFrom docId doc size (size - ov) fuel pos).map
        (fun c => c.text.drop ov)).flatten = doc.drop (pos + ov) := by
  intro fuel
  induction fuel with
  | zero =>
    intro pos h
    have hd : doc.length ≤ pos + ov := by omega
    simp [splitFrom, List.drop_eq_nil_of_le hd]
  | succ f ih =>
    intro pos h
    rw [splitFrom_succ]
    by_cases hc : pos + size < doc.length
    · simp only [hc, if_pos, List.map_cons, List.flatten_cons]
      rw [ih (pos + (size - ov)) (by omega)]
      rw [List.drop_take, List.drop_drop]
      have h1 : pos + (size - ov) + ov = pos + ov + (size - ov) := by omega
      rw [h1]
      nth_rewrite 2 [← List.drop_drop]
      exact List.take_append_drop _ _
    · simp only [hc, if_neg, not_false_iff, List.map_cons, List.map_nil,
        List.flatten_cons, List.flatten_nil, List.append_nil]
      rw [List.take_of_length_le (by simp; omega), List.drop_drop]

/-- Shape of every chunk produced by the sliding window: it is the window
`text[p, p+size)` at some position `pos ≤ p < doc.length`, with end offset
`min (p + size) doc.length`. -/
theorem splitFrom_mem (docId : Nat) (doc : List α) (size step : Nat)
    (hstep : step ≤ size) :
    ∀ fuel pos c, pos < doc.length →
      c ∈ splitFrom docId doc size step fuel pos →
      ∃ p, pos ≤ p ∧ p < doc.length ∧
        c = ⟨docId, (doc.drop p).take size, p, min (p + size) doc.length⟩ := by
  intro fuel
  induction fuel with
  | zero => intro pos c _ hc; simp [splitFrom] at hc
  | succ f ih =>
    intro pos c hpos hc
    rw [splitFrom_succ] at hc
    by_cases hlt : pos + size < doc.length
    · rw [if_pos hlt] at hc
      rcases List.mem_cons.mp hc with h | h
      · exact ⟨pos, le_refl _, hpos, by rw [h]; congr 1; omega⟩
      · obtain ⟨p, hp1, hp2, hp3⟩ := ih (pos + step) c (by omega) h
        exact ⟨p, by omega, hp2, hp3⟩
    · rw [if_neg hlt] at hc
      rcases List.mem_singleton.mp hc with h
      exact ⟨pos, le_refl _, hpos, by rw [h]; congr 1; omega⟩

/-- Consecutive chunks produced by the sliding window overlap by exactly `ov`
characters: offsets agree up to `ov` and the trailing `ov` characters of a
chunk equal the leading `ov` characters of the next chunk. -/
theorem splitFrom_chain (docId : Nat) (doc : List α) (size ov : Nat)
    (hov : ov < size) :
    ∀ fuel pos, doc.length ≤ pos + fuel →
      List.Chain' (fun c₁ c₂ =>
        c₁.end_offset = c₂.start_offset + ov ∧
        c₁.text.drop (c₁.text.length - ov) = c₂.text.take ov)
        (splitFrom docId doc size (size - ov) fuel pos) := by
  intro fuel
  induction fuel with
  | zero => intro pos _; simp [splitFrom]
  | succ f ih =>
    intro pos h
    rw [splitFrom_succ]
    by_cases hlt : pos + size < doc.length
    · rw [if_pos hlt]
      rw [List.chain'_cons']
      refine ⟨?_, ih (pos + (size - ov)) (by omega)⟩
      intro y hy
      obtain ⟨g, hg⟩ : ∃ g, f = g + 1 := ⟨f - 1, by omega⟩
      rw [hg, splitFrom_succ] at hy
      have hhead : y = ⟨docId, (doc.drop (pos + (size - ov))).take size,
          pos + (size - ov),
          min (pos + (size - ov) + size) doc.length⟩ := by
        by_cases h2 : pos + (size - ov) + size < doc.length
        · rw [if_pos h2] at hy
          simp at hy
          rw [← hy]; congr 1; omega
        · rw [if_neg h2] at hy
          simp at hy
          rw [← hy]; congr 1; omega
      rw [hhead]
      constructor
      · simp; omega
      · have hfull : ((doc.drop pos).take size).length = size := by
          simp; omega
        rw [hfull]
        rw [List.drop_take, List.drop_drop, List.take_take]
        congr 1
        omega
    · rw [if_neg hlt]
      simp

/-- The notebook's illustrative document size: a 2500-character document
(character identity is irrelevant to lengths and offsets). -/
def exampleDoc : Document Nat :=
  ⟨0, "", List.replicate 2500 0⟩

/-- Evaluating the Chunker on a 2500-character document with the notebook's
parameters `max_chunk_size = 1024`, `overlap = 64`: three chunks, of lengths
1024, 1024 and 580, at offsets [0,1024), [960,1984), [1920,2500). -/
theorem split_example2500_eval :
    (split exampleDoc 1024 64).map
      (fun cs => cs.map (fun c => (c.text.length, c.start_offset, c.end_offset))) =
    .ok [(1024, 0, 1024), (1024, 960, 1984), (580, 1920, 2500)] := by
  have h1 : ((1024 : Int) - 64).toNat = 960 := by decide
  have h2 : ((1024 : Int)).toNat = 1024 := by decide
  simp only [split, exampleDoc, h1, h2, List.length_replicate, List.isEmpty_iff]
  norm_num
  rw [show (2500 : Nat) = 2499 + 1 from rfl, splitFrom_succ]
  norm_num
  rw [show (2499 : Nat) = 2498 + 1 from rfl, splitFrom_succ]
  norm_num
  rw [show (2498 : Nat) = 2497 + 1 from rfl, splitFrom_succ]
  norm_num
  simp only [Except.map, List.map_cons, List.map_nil, List.length_replicate]

/-- Claim C2 (counterexample): chunking a 2500-character document with
`max_chunk_size = 1024` and `overlap = 64` does NOT yield chunks of lengths
[1024, 1024, 516]: the sliding window advancing by 960 puts the final chunk
at offsets [1920, 2500), which is 580 characters, not 516. -/
theorem C2_chunk_example_counterexample :
    (split exampleDoc 1024 64).map
      (fun cs => cs.map (fun c => (c.text.length, c.start_offset, c.end_offset))) ≠
    .ok [(1024, 0, 1024), (1024, 960, 1984), (516, 1920, 2500)] := by
  rw [split_example2500_eval]
  decide

/-- Claim C2 (amended): chunking a 2500-character document with
`max_chunk_size = 1024` and `overlap = 64` (window advancing by 960) yields
exactly 3 chunks with lengths [1024, 1024, 580] and offsets [0,1024),
[960,1984), [1920,2500). -/
theorem C2_chunk_example_amended :
    exampleDoc.raw_text.length = 2500 ∧
    (split exampleDoc 1024 64).map
      (fun cs => cs.map (fun c => (c.text.length, c.start_offset, c.end_offset))) =
    .ok [(1024, 0, 1024), (1024, 960, 1984), (580, 1920, 2500)] :=
  ⟨by simp only [exampleDoc, List.length_replicate], split_example2500_eval⟩

/-- Claim C3: for every document and every valid parameter pair
(`max_chunk_size > overlap >= 0`), concatenating the chunks produced by
`split` after removing the overlapping prefix of each chunk after the first
reconstructs the document's original text exactly. -/
theorem C3_reassemble_split (doc : Document α) (maxChunkSize overlap : Int)
    (h1 : 0 ≤ overlap) (h2 : overlap < maxChunkSize) (cs : List (Chunk α))
    (hs : split doc maxChunkSize overlap = .ok cs) :
    reassemble overlap.toNat cs = doc.raw_text := by
  unfold split at hs
  rw [if_pos ⟨h2, h1⟩] at hs
  by_cases he : doc.raw_text.isEmpty
  · rw [if_pos he] at hs
    cases hs
    simp_all [reassemble, List.isEmpty_iff]
  · rw [if_neg he] at hs
    cases hs
    have hne : doc.raw_text ≠ [] := by simpa [List.isEmpty_iff] using he
    have hlen : 0 < doc.raw_text.length := List.length_pos.mpr hne
    set L := doc.raw_text.length with hL
    set size := maxChunkSize.toNat with hsize
    set ov := overlap.toNat with hov
    have hstep : (maxChunkSize - overlap).toNat = size - ov := by omega
    have hovs : ov < size := by omega
    rw [hstep]
    obtain ⟨f, hf⟩ : ∃ f, L = f + 1 := ⟨L - 1, by omega⟩
    rw [hf, splitFrom_succ]
    by_cases hc : 0 + size < doc.raw_text.length
    · rw [if_pos hc]
      simp only [reassemble]
      rw [join_drop_splitFrom doc.id doc.raw_text size ov hovs f (0 + (size - ov))
        (by omega)]
      rw [List.drop_zero]
      have : 0 + (size - ov) + ov = size := by omega
      rw [this]
      exact List.take_append_drop _ _
    · rw [if_neg hc]
      simp only [reassemble, List.map_nil, List.flatten_nil, List.append_nil,
        List.drop_zero]
      exact List.take_of_length_le (by omega)

/-- Claim C3 (witness): reassembling the two chunks of the document [1,2,3]
split with `max_chunk_size = 2`, `overlap = 1` recovers [1,2,3]. -/
theorem C3_reassemble_split_witness :
    reassemble (Int.toNat 1) [⟨0, [1, 2], 0, 2⟩, ⟨0, [2, 3], 1, 3⟩] =
      ([1, 2, 3] : List Nat) :=
  C3_reassemble_split ⟨0, "", [1, 2, 3]⟩ 2 1 (by decide) (by decide)
    [⟨0, [1, 2], 0, 2⟩, ⟨0, [2, 3], 1, 3⟩] (by decide)

/-- Claim C7: every chunk produced by the Chunker satisfies
`end_offset - start_offset <= max_chunk_size` (and its text has exactly
`end_offset - start_offset` characters), and any two consecutive chunks of
the same document overlap by exactly `overlap` characters: the end offset of
one chunk exceeds the start offset of the next by `overlap`, and the trailing
`overlap` characters of one chunk equal the leading `overlap` characters of
the next. -/
theorem C7_chunk_invariants (doc : Document α) (maxChunkSize overlap : Int)
    (h1 : 0 ≤ overlap) (h2 : overlap < maxChunkSize) (cs : List (Chunk α))
    (hs : split doc maxChunkSize overlap = .ok cs) :
    (∀ c ∈ cs, c.end_offset - c.start_offset ≤ maxChunkSize.toNat ∧
      c.text.length = c.end_offset - c.start_offset) ∧
    List.Chain' (fun c₁ c₂ =>
      c₁.end_offset = c₂.start_offset + overlap.toNat ∧
      c₁.text.drop (c₁.text.length - overlap.toNat) =
        c₂.text.take overlap.toNat) cs := by
  unfold split at hs
  rw [if_pos ⟨h2, h1⟩] at hs
  by_cases he : doc.raw_text.isEmpty
  · rw [if_pos he] at hs
    cases hs
    simp
  · rw [if_neg he] at hs
    cases hs
    have hne : doc.raw_text ≠ [] := by simpa [List.isEmpty_iff] using he
    have hlen : 0 < doc.raw_text.length := List.length_pos.mpr hne
    have hstep : (maxChunkSize - overlap).toNat =
        maxChunkSize.toNat - overlap.toNat := by omega
    have hovs : overlap.toNat < maxChunkSize.toNat := by omega
    constructor
    · intro c hc
      obtain ⟨p, hp1, hp2, hp3⟩ := splitFrom_mem doc.id doc.raw_text
        maxChunkSize.toNat ((maxChunkSize - overlap).toNat) (by omega)
        doc.raw_text.length 0 c hlen hc
      subst hp3
      simp only [List.length_take, List.length_drop]
      omega
    · rw [hstep]
      exact splitFrom_chain doc.id doc.raw_text maxChunkSize.toNat
        overlap.toNat hovs doc.raw_text.length 0 (by omega)

/-- Claim C7 (witness): in the split of [1,2,3] with `max_chunk_size = 2`,
`overlap = 1`, the chunk [2,3] at offsets [1,3) spans at most 2 characters. -/
theorem C7_chunk_invariants_witness :
    (⟨0, [2, 3], 1, 3⟩ : Chunk Nat).end_offset -
      (⟨0, [2, 3], 1, 3⟩ : Chunk Nat).start_offset ≤ (2 : Int).toNat :=
  ((C7_chunk_invariants ⟨0, "", [1, 2, 3]⟩ 2 1 (by decide) (by decide)
    [⟨0, [1, 2], 0, 2⟩, ⟨0, [2, 3], 1, 3⟩] (by decide)).1
    ⟨0, [2, 3], 1, 3⟩ (by decide)).1

/-- Claim C8: `split` fails with `InvalidConfiguration` exactly when the
precondition `max_chunk_size > overlap >= 0` does not hold, and under the
precondition every produced chunk, the final one included, is non-empty. -/
theorem C8_split_invalid_configuration (doc : Document α)
    (maxChunkSize overlap : Int) :
    (split doc maxChunkSize overlap = .error .InvalidConfiguration ↔
      ¬(overlap < maxChunkSize ∧ 0 ≤ overlap)) ∧
    ∀ cs, split doc maxChunkSize overlap = .ok cs → ∀ c ∈ cs, c.text ≠ [] := by
  constructor
  · by_cases hv : overlap < maxChunkSize ∧ 0 ≤ overlap
    · simp only [split, if_pos hv]
      by_cases he : doc.raw_text.isEmpty <;> simp [he, hv]
    · simp [split, if_neg hv, hv]
  · intro cs hs c hc
    have hv : overlap < maxChunkSize ∧ 0 ≤ overlap := by
      by_contra hv
      simp [split, if_neg hv] at hs
    unfold split at hs
    rw [if_pos hv] at hs
    by_cases he : doc.raw_text.isEmpty
    · rw [if_pos he] at hs
      cases hs
      simp at hc
    · rw [if_neg he] at hs
      cases hs
      have hne : doc.raw_text ≠ [] := by simpa [List.isEmpty_iff] using he
      have hlen : 0 < doc.raw_text.length := List.length_pos.mpr hne
      obtain ⟨p, hp1, hp2, hp3⟩ := splitFrom_mem doc.id doc.raw_text
        maxChunkSize.toNat ((maxChunkSize - overlap).toNat) (by omega)
        doc.raw_text.length 0 c hlen hc
      subst hp3
      refine List.length_pos.mp ?_
      simp only [List.length_take, List.length_drop]
      omega

/-- Claim C8 (witness): the first chunk of the split of [1,2,3] with
`max_chunk_size = 2`, `overlap = 1` is non-empty. -/
theorem C8_split_invalid_configuration_witness :
    (⟨0, [1, 2], 0, 2⟩ : Chunk Nat).text ≠ [] :=
  (C8_split_invalid_configuration ⟨0, "", [1, 2, 3]⟩ 2 1).2
    [⟨0, [1, 2], 0, 2⟩, ⟨0, [2, 3], 1, 3⟩] (by decide)
    ⟨0, [1, 2], 0, 2⟩ (by decide)

/-- Modelled from the spec: the similarity metric of the Vector Index,
configurable at construction (cosine or inner product). -/
inductive Metric where
  | cosine
  | innerProduct
  deriving Repr, DecidableEq

/-- Inner product of two embedding vectors, modelled over exact rationals
(the numeric representation chosen for float components). -/
def dot : List ℚ → List ℚ → ℚ
  | x :: xs, y :: ys => x * y + dot xs ys
  | _, _ => 0

/-- Modelled from the spec: a VectorIndexEntry pairing an embedding vector
with its owning chunk payload. -/
structure Entry (χ : Type) where
  vector : List ℚ
  chunk : χ
  deriving Repr, DecidableEq

/-- Modelled from the spec: the Vector Index, holding its similarity metric
and its entries in insertion order. -/
structure Index (χ : Type) where
  metric : Metric
  entries : List (Entry χ)
  deriving Repr, DecidableEq

/-- A stored entry together with its similarity score against a query and
its insertion position. -/
structure Scored (χ : Type) where
  idx : Nat
  score : ℚ
  chunk : χ
  deriving Repr, DecidableEq

/-- Retrieval order: higher similarity first; equal scores are ordered by
insertion position, earliest first. -/
def rank (a b : Scored χ) : Prop :=
  b.score < a.score ∨ (a.score = b.score ∧ a.idx ≤ b.idx)

instance : DecidableRel (@rank χ) := fun a b =>
  inferInstanceAs (Decidable (b.score < a.score ∨ (a.score = b.score ∧ a.idx ≤ b.idx)))

instance : IsTotal (Scored χ) rank where
  total a b := by
    unfold rank
    rcases lt_trichotomy a.score b.score with h | h | h
    · exact Or.inr (Or.inl h)
    · rcases Nat.le_total a.idx b.idx with h2 | h2
      · exact Or.inl (Or.inr ⟨h, h2⟩)
      · exact Or.inr (Or.inr ⟨h.symm, h2⟩)
    · exact Or.inl (Or.inl h)

instance : IsTrans (Scored χ) rank where
  trans a b c hab hbc := by
    unfold rank at *
    rcases hab with h1 | ⟨h1, h1'⟩ <;> rcases hbc with h2 | ⟨h2, h2'⟩
    · exact Or.inl (h2.trans h1)
    · exact Or.inl (h2 ▸ h1)
    · exact Or.inl (h1 ▸ h2)
    · exact Or.inr ⟨h1.trans h2, h1'.trans h2'⟩

/-- Modelled from the spec: similarity between a query vector and a stored
embedding.  The spec requires embeddings to be unit-normalized whenever the
metric is cosine (Embedding invariant, §3), and on unit vectors cosine
similarity coincides with the inner product; both metrics are therefore the
exact rational inner product. -/
def similarity : Metric → List ℚ → List ℚ → ℚ := fun _ q v => dot q v

/-- All stored entries scored against a query, tagged with their insertion
position. -/
def scoredEntries (idx : Index χ) (q : List ℚ) : List (Scored χ) :=
  idx.entries.enum.map
    (fun p => ⟨p.1, similarity idx.metric q p.2.vector, p.2.chunk⟩)

/-- Modelled from the spec: `search(query_vector, k)` computes the similarity
between the query and every stored embedding and returns the top-k pairs
(chunk, score) by descending score, ties broken by insertion order (earliest
first), via a stable insertion sort under `rank`. -/
def search (idx : Index χ) (q : List ℚ) (k : Nat) : List (χ × ℚ) :=
  (((scoredEntries idx q).insertionSort rank).take k).map
    (fun s => (s.chunk, s.score))

/-- Claim C1: for every (non-empty) index and query vector, `search(q, k)`
returns at most k pairs, sorted by non-increasing similarity score, and they
are exactly the k highest-ranked stored entries: the result is the k-prefix
of a permutation of all scored entries that is sorted by descending score
with ties in insertion order, and every returned entry ranks at least as
high as every entry not returned. -/
theorem C1_search_topk (idx : Index χ) (q : List ℚ) (k : Nat)
    (_hne : idx.entries ≠ []) :
    ∃ sorted : List (Scored χ),
      sorted.Perm (scoredEntries idx q) ∧
      sorted.Pairwise rank ∧
      search idx q k = (sorted.take k).map (fun s => (s.chunk, s.score)) ∧
      (search idx q k).length ≤ k ∧
      List.Pairwise (fun p₁ p₂ => p₂.2 ≤ p₁.2) (search idx q k) ∧
      ∀ a ∈ sorted.take k, ∀ b ∈ sorted.drop k, rank a b := by
  have hsorted : ((scoredEntries idx q).insertionSort rank).Pairwise rank :=
    List.sorted_insertionSort rank (scoredEntries idx q)
  refine ⟨(scoredEntries idx q).insertionSort rank,
    List.perm_insertionSort rank (scoredEntries idx q), hsorted, rfl, ?_, ?_, ?_⟩
  · simp only [search, List.length_map]
    exact List.length_take_le k _
  · show List.Pairwise _ ((((scoredEntries idx q).insertionSort rank).take k).map
      (fun s => (s.chunk, s.score)))
    rw [List.pairwise_map]
    refine List.Pairwise.imp ?_ (hsorted.sublist (List.take_sublist k _))
    intro a b hab
    rcases hab with h1 | ⟨h1, _⟩
    · exact le_of_lt h1
    · exact le_of_eq h1.symm
  · intro a ha b hb
    have hsplit := (List.pairwise_append.mp
      (by rw [List.take_append_drop k ((scoredEntries idx q).insertionSort rank)]
          exact hsorted)).2.2
    exact hsplit a ha b hb

/-- Claim C1 (witness): searching a concrete two-entry index with k = 1
returns at most one result. -/
theorem C1_search_topk_witness :
    (search (Index.mk .cosine [⟨[1, 0], (10 : Nat)⟩, ⟨[0, 1], 20⟩]) [1, 0] 1).length
      ≤ 1 :=
  (C1_search_topk (Index.mk .cosine [⟨[1, 0], (10 : Nat)⟩, ⟨[0, 1], 20⟩]) [1, 0] 1
    (List.cons_ne_nil _ _)).choose_spec.2.2.2.1

/-- Claim C9: searching an index with zero entries returns the empty
retrieval result (the consistently applied policy of this model); `search`
is a total function, so no other error can be raised. -/
theorem C9_search_empty_index (m : Metric) (q : List ℚ) (k : Nat) :
    search (Index.mk m ([] : List (Entry χ))) q k = [] := by
  simp [search, scoredEntries]

/-- The inner product of a vector with itself is non-negative. -/
theorem dot_self_nonneg : ∀ x : List ℚ, 0 ≤ dot x x
  | [] => le_refl 0
  | a :: x => by
    have h := dot_self_nonneg x
    simp only [dot]
    nlinarith [sq_nonneg a]

/-- Two-sided arithmetic-geometric bound: `2⟨x,y⟩ ≤ ⟨x,x⟩ + ⟨y,y⟩`. -/
theorem dot_le_avg : ∀ x y : List ℚ, 2 * dot x y ≤ dot x x + dot y y
  | [], y => by simpa [dot] using dot_self_nonneg y
  | a :: x, [] => by
    have h := dot_self_nonneg x
    simp only [dot]
    nlinarith [sq_nonneg a]
  | a :: x, b :: y => by
    have h := dot_le_avg x y
    simp only [dot]
    nlinarith [sq_nonneg (a - b)]

/-- Equality case of the arithmetic-geometric bound: equal-length vectors
with `2⟨x,y⟩ = ⟨x,x⟩ + ⟨y,y⟩` are equal. -/
theorem dot_eq_avg_iff : ∀ x y : List ℚ, x.length = y.length →
    2 * dot x y = dot x x + dot y y → x = y
  | [], [], _, _ => rfl
  | a :: x, b :: y, hl, hd => by
    simp only [List.length_cons, Nat.succ.injEq] at hl
    simp only [dot] at hd
    have h1 := dot_le_avg x y
    have h2 : a = b := by nlinarith [sq_nonneg (a - b)]
    have h3 : x = y := dot_eq_avg_iff x y hl (by nlinarith [sq_nonneg (a - b)])
    rw [h2, h3]

/-- Every scored entry comes from a stored entry, with the score being its
similarity against the query. -/
theorem mem_scoredEntries (idx : Index χ) (q : List ℚ) (s : Scored χ)
    (hs : s ∈ scoredEntries idx q) :
    ∃ f ∈ idx.entries, s.score = dot q f.vector ∧ s.chunk = f.chunk := by
  obtain ⟨p, hp, rfl⟩ := List.mem_map.mp hs
  refine ⟨p.2, ?_, rfl, rfl⟩
  have h2 := List.mk_mem_enum_iff_getElem?.mp (by exact hp)
  exact List.mem_iff_getElem?.mpr ⟨p.1, h2⟩

/-- Every stored entry is scored: it appears among the scored entries with
its similarity against the query. -/
theorem scoredEntries_mem (idx : Index χ) (q : List ℚ) (f : Entry χ)
    (hf : f ∈ idx.entries) :
    ∃ s ∈ scoredEntries idx q, s.score = dot q f.vector ∧ s.chunk = f.chunk := by
  obtain ⟨i, hi, hget⟩ := List.mem_iff_getElem.mp hf
  refine ⟨⟨i, similarity idx.metric q f.vector, f.chunk⟩, ?_, rfl, rfl⟩
  apply List.mem_map.mpr
  refine ⟨(i, f), ?_, rfl⟩
  exact List.mk_mem_enum_iff_getElem?.mpr (by rw [List.getElem?_eq_getElem hi, hget])

/-- Claim C6 (counterexample): with duplicate embeddings the top-1 result of
searching with a stored embedding as query need not be the queried chunk.
Two entries share the unit vector [1]; querying with the embedding stored
for chunk 1 returns chunk 0 (the earlier insertion) as top-1, not chunk 1,
by the tie-breaking rule of the same spec. -/
theorem C6_self_query_counterexample :
    (⟨[1], 1⟩ : Entry Nat) ∈
      (Index.mk .cosine [⟨[1], 0⟩, ⟨[1], 1⟩] : Index Nat).entries ∧
    dot [1] [1] = 1 ∧
    (search (Index.mk .cosine [⟨[1], 0⟩, ⟨[1], 1⟩] : Index Nat) [1] 1).head? =
      some (0, 1) ∧
    (search (Index.mk .cosine [⟨[1], 0⟩, ⟨[1], 1⟩] : Index Nat) [1] 1).head? ≠
      some (1, 1) := by
  refine ⟨by simp, by norm_num [dot], ?_, ?_⟩ <;>
  · simp only [search, scoredEntries, similarity, dot, List.enum, List.enumFrom,
      List.map_cons, List.map_nil, List.insertionSort, List.orderedInsert]
    norm_num [rank]

/-- Claim C6 (amended): for an index whose stored embeddings all share one
dimension and are unit-norm (as the spec requires under cosine), searching
with the embedding of a stored entry returns as top-1 that entry's chunk
with similarity score exactly 1, provided every stored entry sharing the
queried embedding vector carries the same chunk (without this proviso the
earlier-inserted duplicate wins the tie and the claim fails). -/
theorem C6_self_query_top1 (idx : Index χ) (e : Entry χ) (k dim : Nat)
    (hdim : ∀ f ∈ idx.entries, f.vector.length = dim)
    (hunit : ∀ f ∈ idx.entries, dot f.vector f.vector = 1)
    (he : e ∈ idx.entries)
    (hshare : ∀ f ∈ idx.entries, f.vector = e.vector → f.chunk = e.chunk)
    (hk : 1 ≤ k) :
    (search idx e.vector k).head? = some (e.chunk, 1) := by
  set q := e.vector with hq
  set S := scoredEntries idx q with hS
  have hle : ∀ s ∈ S, s.score ≤ 1 := by
    intro s hs
    obtain ⟨f, hf, hsc, _⟩ := mem_scoredEntries idx q s hs
    have h1 := dot_le_avg q f.vector
    rw [hunit f hf, hq, hunit e he] at h1
    rw [hsc, hq]
    linarith
  have heq : ∀ s ∈ S, s.score = 1 → s.chunk = e.chunk := by
    intro s hs h1
    obtain ⟨f, hf, hsc, hch⟩ := mem_scoredEntries idx q s hs
    have hv : e.vector = f.vector := by
      refine dot_eq_avg_iff e.vector f.vector ?_ ?_
      · rw [hdim e he, hdim f hf]
      · rw [hunit f hf, hunit e he, ← hq, ← hsc, h1]
        norm_num
    rw [hch, hshare f hf hv.symm]
  obtain ⟨sE, hsE, hsEscore, _⟩ := scoredEntries_mem idx q e he
  rw [hq, hunit e he] at hsEscore
  have hsorted : (S.insertionSort rank).Pairwise rank :=
    List.sorted_insertionSort rank S
  have hperm : (S.insertionSort rank).Perm S := List.perm_insertionSort rank S
  have hnil : S.insertionSort rank ≠ [] := by
    intro hcon
    have hmem : sE ∈ S.insertionSort rank := hperm.mem_iff.mpr hsE
    rw [hcon] at hmem
    exact List.not_mem_nil sE hmem
  obtain ⟨h, t, hht⟩ := List.exists_cons_of_ne_nil hnil
  have hhS : h ∈ S := hperm.mem_iff.mp (by rw [hht]; exact List.mem_cons_self h t)
  have hhle : h.score ≤ 1 := hle h hhS
  have hhge : 1 ≤ h.score := by
    have hsEsorted : sE ∈ S.insertionSort rank := hperm.mem_iff.mpr hsE
    rw [hht] at hsEsorted
    rcases List.mem_cons.mp hsEsorted with rfl | hmem
    · rw [hsEscore]
    · rw [hht] at hsorted
      have h3 := (List.pairwise_cons.mp hsorted).1 sE hmem
      rcases h3 with h1 | ⟨h1, _⟩
      · rw [hsEscore] at h1; linarith
      · rw [h1, hsEscore]
  have hscore : h.score = 1 := le_antisymm hhle hhge
  obtain ⟨k2, rfl⟩ := Nat.exists_eq_add_of_le hk
  show ((((S.insertionSort rank)).take (1 + k2)).map
    (fun s => (s.chunk, s.score))).head? = some (e.chunk, 1)
  rw [hht]
  rw [show 1 + k2 = k2 + 1 from Nat.add_comm 1 k2, List.take_succ_cons,
    List.map_cons, List.head?_cons]
  rw [hscore, heq h hhS hscore]

/-- Claim C6 (witness): in an index with distinct unit vectors [1,0] and
[0,1], querying with [0,1] (the stored embedding of chunk 9) returns chunk 9
with score 1 as top-1. -/
theorem C6_self_query_top1_witness :
    (search (Index.mk .cosine [⟨[1, 0], (7 : Nat)⟩, ⟨[0, 1], 9⟩]) [0, 1] 1).head? =
      some (9, 1) :=
  C6_self_query_top1 (Index.mk .cosine [⟨[1, 0], (7 : Nat)⟩, ⟨[0, 1], 9⟩])
    ⟨[0, 1], 9⟩ 1 2 (by simp) (by simp [dot]) (by simp) (by simp) (by decide)

/-- Modelled from the spec: one record of the persisted index layout (§6):
per entry the embedding vector (as exact numerator/denominator lists), the
chunk text, and its source document id and offsets. -/
structure PersistedEntry where
  vecNum : List Int
  vecDen : List Nat
  text : List Char
  document_id : Nat
  start_offset : Nat
  end_offset : Nat
  deriving Repr, DecidableEq

/-- Modelled from the spec: the persisted index with its global metadata
(dimension and similarity metric) and the per-entry records. -/
structure PersistedIndex where
  dimension : Nat
  metric : Metric
  entries : List PersistedEntry
  deriving Repr, DecidableEq

/-- Serialize one index entry into its persisted record. -/
def encodeEntry (e : Entry (Chunk Char)) : PersistedEntry :=
  ⟨e.vector.map Rat.num, e.vector.map Rat.den, e.chunk.text,
    e.chunk.document_id, e.chunk.start_offset, e.chunk.end_offset⟩

/-- Modelled from the spec: `persist(location)` writes all entries plus
global metadata; the location is abstracted away and the written layout is
returned. -/
def persist (idx : Index (Chunk Char)) : PersistedIndex :=
  ⟨((idx.entries.head?.map (fun e => e.vector.length)).getD 0), idx.metric,
    idx.entries.map encodeEntry⟩

/-- Rebuild one index entry from its persisted record. -/
def decodeEntry (p : PersistedEntry) : Entry (Chunk Char) :=
  ⟨(p.vecNum.zip p.vecDen).map (fun nd => mkRat nd.1 nd.2),
    ⟨p.document_id, p.text, p.start_offset, p.end_offset⟩⟩

/-- Modelled from the spec: `load(location)` rebuilds the index from the
persisted layout, validating the dimension metadata against every stored
vector. -/
def load (p : PersistedIndex) : Option (Index (Chunk Char)) :=
  if (∀ pe ∈ p.entries, pe.vecNum.length = p.dimension ∧
      pe.vecDen.length = p.dimension) then
    some ⟨p.metric, p.entries.map decodeEntry⟩
  else none

/-- Splitting a rational vector into numerators and denominators and
recombining with `mkRat` is the identity. -/
theorem zip_num_den_map_mkRat : ∀ v : List ℚ,
    ((v.map Rat.num).zip (v.map Rat.den)).map (fun nd => mkRat nd.1 nd.2) = v
  | [] => rfl
  | a :: v => by
    simp only [List.map_cons, List.zip_cons_cons, Rat.mkRat_self]
    rw [zip_num_den_map_mkRat v]

/-- Decoding inverts encoding on every entry. -/
theorem decodeEntry_encodeEntry (e : Entry (Chunk Char)) :
    decodeEntry (encodeEntry e) = e := by
  obtain ⟨v, ⟨d, t, s, n⟩⟩ := e
  simp only [encodeEntry, decodeEntry, zip_num_den_map_mkRat]

/-- Claim C5: for every index whose entries share one dimension (the spec
invariant), `persist` followed by `load` round-trips every entry exactly
(vectors, chunk text, document id and offsets), and the loaded index gives
identical `search` results for every query vector and every k. -/
theorem C5_persist_load_roundtrip (idx : Index (Chunk Char)) (dim : Nat)
    (hdim : ∀ e ∈ idx.entries, e.vector.length = dim) :
    load (persist idx) = some idx ∧
    ∀ q k, (load (persist idx)).map (fun j => search j q k) =
      some (search idx q k) := by
  have hload : load (persist idx) = some idx := by
    obtain ⟨metr, entries⟩ := idx
    cases entries with
    | nil => simp [load, persist]
    | cons e rest =>
      simp only [load, persist, List.head?_cons, Option.map_some', Option.getD_some]
      rw [if_pos ?_]
      · simp only [List.map_map, Option.some.injEq]
        congr 1
        refine (List.map_congr_left ?_).trans (List.map_id _)
        intro f _
        simp [decodeEntry_encodeEntry]
      · intro pe hpe
        obtain ⟨f, hf, rfl⟩ := List.mem_map.mp hpe
        have hfl : f.vector.length = dim := hdim f hf
        have hel : e.vector.length = dim := hdim e (List.mem_cons_self e rest)
        constructor
        · simp [encodeEntry, hfl, hel]
        · simp [encodeEntry, hfl, hel]
  exact ⟨hload, fun q k => by rw [hload, Option.map_some']⟩

/-- Claim C5 (witness): a concrete one-entry index round-trips through
persist and load. -/
theorem C5_persist_load_roundtrip_witness :
    load (persist (Index.mk .cosine
      [⟨[1, 0], ⟨0, ['a', 'b'], 0, 2⟩⟩])) =
    some (Index.mk .cosine [⟨[1, 0], ⟨0, ['a', 'b'], 0, 2⟩⟩]) :=
  (C5_persist_load_roundtrip
    (Index.mk .cosine [⟨[1, 0], ⟨0, ['a', 'b'], 0, 2⟩⟩]) 2 (by simp)).1

/-- Modelled from the spec: a prompt template as a sequence of segments,
literal text interleaved with the named placeholders `context` and
`question`. -/
inductive Seg where
  | lit : List Char → Seg
  | contextPH : Seg
  | questionPH : Seg
  deriving Repr, DecidableEq

/-- Modelled from the spec: Prompt Assembler error kind for a template
lacking a required placeholder. -/
inductive AssembleError where
  | MissingPlaceholder
  deriving Repr, DecidableEq

/-- The documented delimiter between retrieved chunk texts in the context
placeholder: a blank line, as used by the stuff-documents chain driving the
notebook. -/
def delimiter : List Char := ['\n', '\n']

/-- Fill one template segment: literals verbatim, the context placeholder
with the retrieved chunk texts joined by the delimiter in retriever order,
the question placeholder with the question verbatim. -/
def fillSeg (retrieval : List (List Char × ℚ)) (question : List Char) :
    Seg → List Char
  | .lit s => s
  | .contextPH => List.intercalate delimiter (retrieval.map Prod.fst)
  | .questionPH => question

/-- Modelled from the spec: `assemble(template, retrieval, question)` fails
with `MissingPlaceholder` when a required placeholder is absent, and
otherwise substitutes every segment. -/
def assemble (template : List Seg) (retrieval : List (List Char × ℚ))
    (question : List Char) : Except AssembleError (List Char) :=
  if Seg.contextPH ∈ template ∧ Seg.questionPH ∈ template then
    .ok ((template.map (fillSeg retrieval question)).flatten)
  else .error .MissingPlaceholder

/-- Claim C4: for every template containing the context and question
placeholders, every retrieval result and every question, `assemble`
succeeds, substituting the question verbatim and filling the context
placeholder with the retrieved chunk texts concatenated in retriever order
separated by the documented delimiter, all other segments verbatim. -/
theorem C4_assemble_substitution (template : List Seg)
    (retrieval : List (List Char × ℚ)) (question : List Char)
    (hc : Seg.contextPH ∈ template) (hq : Seg.questionPH ∈ template) :
    assemble template retrieval question =
      .ok ((template.map (fun s =>
        match s with
        | .lit l => l
        | .contextPH => List.intercalate delimiter (retrieval.map Prod.fst)
        | .questionPH => question)).flatten) := by
  unfold assemble
  rw [if_pos ⟨hc, hq⟩]
  rfl

/-- Claim C4 (witness): assembling the template context-newline-question
with the single retrieved chunk (Paris is the capital of France, 0.9) and
the question produces the two lines of the spec example. -/
theorem C4_assemble_substitution_witness :
    assemble [Seg.contextPH, Seg.lit ['\n'], Seg.questionPH]
      [("Paris is the capital of France".data, 9 / 10)]
      "What is the capital of France?".data =
    .ok ("Paris is the capital of France".data ++ '\n' ::
      "What is the capital of France?".data) :=
  (C4_assemble_substitution [Seg.contextPH, Seg.lit ['\n'], Seg.questionPH]
    [("Paris is the capital of France".data, 9 / 10)]
    "What is the capital of France?".data
    (by decide) (by decide)).trans (by simp [delimiter, List.intercalate])

end RAG
